import Mathlib

/-!
Shallow embedding of the media acquisition pipeline of `tg-relay-rs`
(src/download.rs, src/utils.rs, src/error.rs) and proofs about it.

External effects are modelled as explicit parameters:
* the spawned process outcome is an exit code plus captured stderr text;
* the workspace directory listing is a list of entries;
* content sniffing (the `infer` crate) and the filesystem metadata check
  are abstract functions fixed for one pipeline run (one filesystem state).
-/

namespace TgRelay

/-! ## String primitives modelling the Rust std functions used by the code -/

/-- Char-wise ASCII lowering; models `str::to_lowercase` on the ASCII
fragment (and the folding of `eq_ignore_ascii_case`), which is all the
extension and marker comparisons in the code rely on. -/
def strLower (s : String) : String := ⟨s.data.map Char.toLower⟩

/-- Models Rust `str::eq_ignore_ascii_case`. -/
def eqIgnoreAsciiCase (a b : String) : Bool := strLower a == strLower b

/-- Bool test that `needle` occurs as a contiguous run inside `hay`;
models `str::contains` for a plain string pattern. -/
def containsSub : List Char → List Char → Bool
  | [], needle => needle.isEmpty
  | c :: t, needle => needle.isPrefixOf (c :: t) || containsSub t needle

/-- Models `str::contains` on `String`s. -/
def strContains (hay sub : String) : Bool := containsSub hay.data sub.data

/-- Models `str::starts_with(char)`. -/
def startsWithChar (s : String) (c : Char) : Bool :=
  match s.data with
  | [] => false
  | a :: _ => a == c

/-! ## Path helpers modelling `std::path::Path` accessors

Paths are plain strings.  The paths handled by the pipeline are always
either bare file names or `workspace ++ "/" ++ name` for a directory
entry name produced by `read_dir`, so no `..`/`.`-normalisation beyond
the final component is needed. -/

/-- The suffix of `l` strictly after the last occurrence of `sep`
(`l` itself when `sep` does not occur). -/
def afterLastSep (sep : Char) (l : List Char) : List Char :=
  (l.reverse.takeWhile (fun c => c != sep)).reverse

/-- Models `Path::file_name` for the path shapes above: the final
`/`-separated component, unless it is empty, `.` or `..`. -/
def fileName (p : String) : Option String :=
  let fn := afterLastSep '/' p.data
  if fn.isEmpty || fn == ['.'] || fn == ['.', '.'] then none else some ⟨fn⟩

/-- The suffix strictly after the last `'.'` of the list, if any. -/
def afterLastDot : List Char → Option (List Char)
  | [] => none
  | c :: rest =>
    match afterLastDot rest with
    | some e => some e
    | none => if c == '.' then some rest else none

/-- Models `Path::extension` applied to a file name `f`: the portion
after the final `.`, where a leading `.` (hidden-file marker) does not
count as a separator. -/
def rustExtension (f : String) : Option String :=
  match f.data with
  | [] => none
  | _ :: rest => (afterLastDot rest).map fun e => ⟨e⟩

/-- Models `Path::extension` on a whole path: the extension of its
final component. -/
def pathExtension (p : String) : Option String := (fileName p).bind rustExtension

/-! ## `src/utils.rs` : media classification -/

/-- Embedding of `MediaKind` from src/utils.rs. -/
inductive MediaKind where
  | Video
  | Image
  | Unknown
deriving DecidableEq

/-- Embedding of `VIDEO_EXTSTENSIONS` from src/utils.rs (sic). -/
def VIDEO_EXTSTENSIONS : List String := ["mp4", "webm", "mov", "mkv", "avi", "m4v", "3gp"]

/-- Embedding of `IMAGE_EXTSTENSIONS` from src/utils.rs (sic). -/
def IMAGE_EXTSTENSIONS : List String := ["jpg", "jpeg", "png", "webp", "gif", "bmp"]

/-- The extension-lookup step shared by `detect_media_kind` and
`detect_media_kind_async` (the code duplicates this block verbatim):
`some k` when the extension decides the kind, `none` when the code
falls through to content sniffing. -/
def extensionKind (p : String) : Option MediaKind :=
  match pathExtension p with
  | some ext =>
    if VIDEO_EXTSTENSIONS.any (fun e => eqIgnoreAsciiCase e ext) then some .Video
    else if IMAGE_EXTSTENSIONS.any (fun e => eqIgnoreAsciiCase e ext) then some .Image
    else none
  | none => none

/-- The content-sniffing tail of `detect_media_kind`:
`infer::get_from_path` returns `Err` (modelled `.error ()`),
`Ok(None)`, or `Ok(Some(kind))` with a MIME string; the code maps the
first component of the MIME string (before the slash). -/
def contentSniff (r : Except Unit (Option String)) : MediaKind :=
  match r with
  | .ok (some mime) =>
    match (mime.splitOn "/").head? with
    | some "video" => .Video
    | some "image" => .Image
    | _ => .Unknown
  | _ => .Unknown

/-- Embedding of `detect_media_kind` from src/utils.rs; `inferFromPath` stands for
`infer::get_from_path` under the current filesystem state. -/
def detect_media_kind (p : String)
    (inferFromPath : String → Except Unit (Option String)) : MediaKind :=
  match extensionKind p with
  | some k => k
  | none => contentSniff (inferFromPath p)

/-- Outcome of the open-then-read prefix step of
`detect_media_kind_async`: opening may fail, reading may fail, or a
(≤ 8 KiB, already truncated to the bytes actually read) buffer comes
back. -/
inductive OpenReadOutcome where
  | openErr
  | readErr
  | readOk (buf : List UInt8)

/-- Embedding of `detect_media_kind_async` from src/utils.rs; `inferGet` stands for
`infer::get` on a byte buffer. -/
def detect_media_kind_async (p : String) (openRead : OpenReadOutcome)
    (inferGet : List UInt8 → Option String) : MediaKind :=
  match extensionKind p with
  | some k => k
  | none =>
    match openRead with
    | .readOk buf =>
      if buf.length > 0 then
        match inferGet buf with
        | some mt =>
          if mt.startsWith "video/" then .Video
          else if mt.startsWith "image/" then .Image
          else .Unknown
        | none => .Unknown
      else .Unknown
    | _ => .Unknown

/-! ## `src/error.rs` -/

/-- Embedding of `Error` from src/error.rs. -/
inductive Error where
  | Io (msg : String)
  | InstaloaderFailed (s : String)
  | YTDLPFailed (s : String)
  | NoMediaFound
  | UnknownMediaKind
  | ValidationFailed (s : String)
  | Teloxide (msg : String)
  | Join (msg : String)
  | RateLimit
  | Other (s : String)
deriving DecidableEq

/-- The `thiserror` display strings of `Error` (the `yt-dpl` typo is in
the source). -/
def Error.message : Error → String
  | .Io m => "io error: " ++ m
  | .InstaloaderFailed s => "instaloader failed: " ++ s
  | .YTDLPFailed s => "yt-dpl failed: " ++ s
  | .NoMediaFound => "no media found"
  | .UnknownMediaKind => "unknown media kind"
  | .ValidationFailed s => "validation failed: " ++ s
  | .Teloxide m => "teloxide error: " ++ m
  | .Join m => "join error: " ++ m
  | .RateLimit => "rate limit exceeded"
  | .Other s => "other: " ++ s

/-! ## `src/download.rs` -/

/-- Embedding of `FORBIDDEN_EXTENSIONS` from src/download.rs. -/
def FORBIDDEN_EXTENSIONS : List String := ["json", "txt", "log"]

/-- Embedding of `is_potential_media_file` from src/download.rs. -/
def is_potential_media_file (path : String) : Bool :=
  let nameBad :=
    match fileName path with
    | some filename =>
      startsWithChar filename '.' || strContains (strLower filename) "metadata"
    | none => false
  if nameBad then false
  else
    match pathExtension path with
    | none => false
    | some e =>
      let ext := strLower e
      if FORBIDDEN_EXTENSIONS.any (fun f => eqIgnoreAsciiCase f ext) then false
      else (VIDEO_EXTSTENSIONS ++ IMAGE_EXTSTENSIONS).any fun a => eqIgnoreAsciiCase a ext

/-- Kind of a directory entry as reported by the operating system.  The
scan in `run_command_in_tempdir` never inspects it (it filters by name
only); it is carried so that statements about regular files can be
made. -/
inductive EntryType where
  | regular
  | directory
  | symlink
deriving DecidableEq

/-- One `read_dir` entry of the workspace: a bare file name (no `/`,
never `.` or `..`) plus its filesystem type. -/
structure DirEntry where
  name : String
  etype : EntryType
deriving DecidableEq

/-- Embedding of `DownloadResult` from src/download.rs; the `TempDir` guard is
represented by the workspace path it owns. -/
structure DownloadResult where
  tempdir : String
  files : List String
deriving DecidableEq

/-- The `read_dir` collection loop of `run_command_in_tempdir`:
`entry.path()` is `cwd ++ "/" ++ name`, kept when
`is_potential_media_file` accepts it. -/
def collectFiles (cwd : String) (entries : List DirEntry) : List String :=
  entries.filterMap fun e =>
    let path := cwd ++ "/" ++ e.name
    if is_potential_media_file path then some path else none

/-- Models Rust `str::trim`: strip leading and trailing whitespace. -/
def strTrim (s : String) : String :=
  ⟨((s.data.dropWhile Char.isWhitespace).reverse.dropWhile Char.isWhitespace).reverse⟩

/-- Lexicographic order on character lists by code point; for UTF-8
encoded strings this coincides with the byte-wise order the Rust
`PathBuf: Ord` instance uses on the paths at hand (paths in one directory,
differing only in the final component). -/
def lexLe : List Char → List Char → Bool
  | [], _ => true
  | _ :: _, [] => false
  | a :: as, b :: bs =>
    if a.toNat < b.toNat then true
    else if b.toNat < a.toNat then false
    else lexLe as bs

/-- The path comparison of `files.sort()` / `sort_by(p1.cmp(p2))`. -/
def pathLe (a b : String) : Bool := lexLe a.data b.data

/-- The comparison `pathLe` as a relation, for `List.insertionSort`.  The Rust
`sort`/`sort_by` are stable sorts, and a stable sort is a unique
function of the comparison, so the model uses a stable sort
(`List.insertionSort`). -/
def pathRel (a b : String) : Prop := pathLe a b = true

instance : DecidableRel pathRel := fun _a _b => inferInstanceAs (Decidable (_ = true))

/-- Order on classified items used by `media_items.sort_by(p1.cmp(p2))`:
compare by path only. -/
def itemLe (a b : String × MediaKind) : Prop := pathLe a.1 b.1 = true

instance : DecidableRel itemLe := fun _a _b => inferInstanceAs (Decidable (_ = true))

/-- Strict version of `itemLe` (strictly smaller path), used to state
that a sorted list with pairwise-distinct paths is strictly sorted. -/
def itemLt (a b : String × MediaKind) : Prop := itemLe a b ∧ a.1 ≠ b.1

/-- Embedding of `run_command_in_tempdir` from src/download.rs, after the spawn: the
process outcome is `exitCode` (0 = success, as `status.success()`)
with captured stderr `stderrRaw`, the fresh workspace is `tmpPath`, and
`entries` is what `read_dir` finds in it afterwards. -/
def run_command_in_tempdir (cmd : String) (tmpPath : String) (exitCode : Nat)
    (stderrRaw : String) (entries : List DirEntry) : Except Error DownloadResult :=
  if exitCode ≠ 0 then
    let stderr := strTrim stderrRaw
    if stderr == "" then .error (.Other (cmd ++ " failed: " ++ stderr))
    else
      match cmd with
      | "yt-dlp" => .error (.YTDLPFailed stderr)
      | _ => .error (.Other (cmd ++ " failed: " ++ stderr))
  else
    let files := collectFiles tmpPath entries
    if files.isEmpty then .error .NoMediaFound
    else .ok ⟨tmpPath, files.insertionSort pathRel⟩

/-- The survivor computation of `process_download_result`: classify
every file (concurrently in the code; the completion order is a
permutation of `files`, see the permutation lemmas below), drop
`Unknown`, then keep the paths whose `metadata` check reports a
regular non-empty file (`fsOk`). -/
def mediaItems (classify : String → MediaKind) (fsOk : String → Bool)
    (files : List String) : List (String × MediaKind) :=
  (files.filterMap fun path =>
    match classify path with
    | .Unknown => none
    | k => some (path, k)).filter fun x => fsOk x.1

/-- Embedding of `process_download_result` from src/download.rs, with the delivery
call abstracted away: `.ok (path, kind)` is the unique pair handed to
`send_media_from_path`.  `classify` is `detect_media_kind_async` under
the current filesystem state, `fsOk` the `metadata`-based regular-and-
non-empty check. -/
def process_download_result (classify : String → MediaKind) (fsOk : String → Bool)
    (files : List String) : Except Error (String × MediaKind) :=
  if files.isEmpty then .error .NoMediaFound
  else
    let items := mediaItems classify fsOk files
    if items.isEmpty then .error .NoMediaFound
    else
      let sorted := items.insertionSort itemLe
      match sorted.find? fun x => x.2 == MediaKind.Video with
      | some x => .ok (x.1, .Video)
      | none =>
        match sorted.find? fun x => x.2 == MediaKind.Image with
        | some x => .ok (x.1, .Image)
        | none => .error .NoMediaFound

/-! ## Resource (workspace) lifetime model

`TempDir` removes its directory when dropped.  In
`run_command_in_tempdir` the guard `tmp` is dropped at every early
`return Err(..)`; on success it moves into the returned
`DownloadResult`, which `Handler::handle` passes by value into
`process_download_result`, where it is dropped when that function
returns — after the `send_media_from_path(..).await` completes on the
success path.  `handleEvents` records this control flow as an event
trace for one pipeline run. -/

inductive PipelineEvent where
  | createDir
  | sendFile (path : String) (kind : MediaKind)
  | dropDir
deriving DecidableEq

/-- Event trace of `Handler::handle`: fetch via
`run_command_in_tempdir`, then `process_download_result`; the send of
the winning file (whether the transport succeeds or fails) happens
while the workspace is still alive, and the drop of the workspace is
the last event on every path. -/
def handleEvents (cmd tmpPath : String) (exitCode : Nat) (stderrRaw : String)
    (entries : List DirEntry) (classify : String → MediaKind)
    (fsOk : String → Bool) : List PipelineEvent :=
  match run_command_in_tempdir cmd tmpPath exitCode stderrRaw entries with
  | .error _ => [.createDir, .dropDir]
  | .ok dr =>
    match process_download_result classify fsOk dr.files with
    | .error _ => [.createDir, .dropDir]
    | .ok (p, k) => [.createDir, .sendFile p k, .dropDir]



/-- Variant of `is_potential_media_file` with the forbidden-set test removed, for
the comparison stated by the redundancy claim. -/
def is_potential_media_file_noForbidden (path : String) : Bool :=
  let nameBad :=
    match fileName path with
    | some filename =>
      startsWithChar filename '.' || strContains (strLower filename) "metadata"
    | none => false
  if nameBad then false
  else
    match pathExtension path with
    | none => false
    | some e =>
      let ext := strLower e
      (VIDEO_EXTSTENSIONS ++ IMAGE_EXTSTENSIONS).any fun a => eqIgnoreAsciiCase a ext

/-- The retention condition on an entry name as the specification words
it: name does not start with the hidden-file marker, its lowercase form
does not contain the metadata marker, and its extension is in the
allowed video/image sets and not in the forbidden set. -/
def claimNamePred (n : String) : Bool :=
  !(startsWithChar n '.') && !(strContains (strLower n) "metadata") &&
    (match rustExtension n with
     | none => false
     | some e =>
       let ext := strLower e
       ((VIDEO_EXTSTENSIONS ++ IMAGE_EXTSTENSIONS).any fun a => eqIgnoreAsciiCase a ext) &&
         !(FORBIDDEN_EXTENSIONS.any fun f => eqIgnoreAsciiCase f ext))

/-- The retained set as the claim states it, with the extra condition
that a retained entry is a regular file (the code does not check this;
the counterexample below exhibits the difference). -/
def claimRetainedRegular (cwd : String) (entries : List DirEntry) : List String :=
  ((entries.filter fun e =>
      decide (e.etype = EntryType.regular) && claimNamePred e.name).map
    fun e => cwd ++ "/" ++ e.name).insertionSort pathRel

/-- Shape of entry names produced by `read_dir`: non-empty, free of the
path separator, and neither `.` nor `..`. -/
def cleanName (n : String) : Prop :=
  n ≠ "" ∧ '/' ∉ n.data ∧ n ≠ "." ∧ n ≠ ".."

instance (n : String) : Decidable (cleanName n) :=
  inferInstanceAs (Decidable (_ ∧ _ ∧ _ ∧ _))

/-- A content-sniffing oracle that always fails; used to instantiate
theorems at concrete inputs. -/
def inferFromPathNone : String → Except Unit (Option String) := fun _ => Except.error ()

/-- A byte-buffer sniffing oracle that never recognises anything. -/
def inferGetNone : List UInt8 → Option String := fun _ => none


/-- A concrete classification outcome (one video, one image) used to
instantiate the selector theorems. -/
def classifyDemo : String → MediaKind := fun p =>
  if p == "/w/b.mp4" then MediaKind.Video
  else if p == "/w/a.jpg" then MediaKind.Image
  else MediaKind.Unknown

/-- A concrete metadata check (everything regular and non-empty) used
to instantiate the selector theorems. -/
def fsOkDemo : String → Bool := fun _ => true

/-! # Helper lemmas -/

theorem string_data_inj {a b : String} (h : a.data = b.data) : a = b := by
  cases a; cases b; cases h; rfl

theorem charToNat_inj {a b : Char} (h : a.toNat = b.toNat) : a = b := by
  have h2 := congrArg Char.ofNat h
  rwa [Char.ofNat_toNat, Char.ofNat_toNat] at h2

theorem lexLe_refl : ∀ a : List Char, lexLe a a = true
  | [] => rfl
  | a :: as => by simp [lexLe, Nat.lt_irrefl, lexLe_refl as]

theorem lexLe_total : ∀ a b : List Char, lexLe a b = true ∨ lexLe b a = true
  | [], _ => Or.inl rfl
  | _ :: _, [] => Or.inr rfl
  | a :: as, b :: bs => by
    simp only [lexLe]
    rcases Nat.lt_trichotomy a.toNat b.toNat with h | h | h
    · left
      simp [h]
    · have hn1 : ¬ a.toNat < b.toNat := by omega
      have hn2 : ¬ b.toNat < a.toNat := by omega
      simpa [hn1, hn2] using lexLe_total as bs
    · right
      simp [h]

theorem lexLe_trans : ∀ a b c : List Char,
    lexLe a b = true → lexLe b c = true → lexLe a c = true
  | [], _, _, _, _ => rfl
  | _ :: _, [], _, h, _ => by simp [lexLe] at h
  | _ :: _, _ :: _, [], _, h => by simp [lexLe] at h
  | a :: as, b :: bs, c :: cs, h1, h2 => by
    simp only [lexLe] at h1 h2 ⊢
    by_cases hab : a.toNat < b.toNat <;> by_cases hbc : b.toNat < c.toNat
    · simp [Nat.lt_trans hab hbc]
    · by_cases hcb : c.toNat < b.toNat
      · simp [hbc, hcb] at h2
      · have hac : a.toNat < c.toNat := by omega
        simp [hac]
    · by_cases hba : b.toNat < a.toNat
      · simp [hab, hba] at h1
      · have hac : a.toNat < c.toNat := by omega
        simp [hac]
    · by_cases hba : b.toNat < a.toNat
      · simp [hab, hba] at h1
      · by_cases hcb : c.toNat < b.toNat
        · simp [hbc, hcb] at h2
        · have hac : ¬ a.toNat < c.toNat := by omega
          have hca : ¬ c.toNat < a.toNat := by omega
          simp only [hab, hba, hbc, hcb, if_neg, ite_false] at h1 h2
          simp [hac, hca]
          exact lexLe_trans as bs cs (by simpa using h1) (by simpa using h2)

theorem lexLe_antisymm : ∀ a b : List Char,
    lexLe a b = true → lexLe b a = true → a = b
  | [], [], _, _ => rfl
  | [], _ :: _, _, h => by simp [lexLe] at h
  | _ :: _, [], h, _ => by simp [lexLe] at h
  | a :: as, b :: bs, h1, h2 => by
    simp only [lexLe] at h1 h2
    by_cases hab : a.toNat < b.toNat
    · have hba : ¬ b.toNat < a.toNat := by omega
      simp [hab, hba] at h2
    · by_cases hba : b.toNat < a.toNat
      · simp [hab, hba] at h1
      · have he : a = b := charToNat_inj (by omega)
        have ht : as = bs :=
          lexLe_antisymm as bs (by simpa [hab, hba] using h1) (by simpa [hab, hba] using h2)
        rw [he, ht]

theorem pathLe_refl (a : String) : pathLe a a = true := lexLe_refl a.data

theorem pathLe_total (a b : String) : pathLe a b = true ∨ pathLe b a = true :=
  lexLe_total a.data b.data

theorem pathLe_trans {a b c : String} (h1 : pathLe a b = true) (h2 : pathLe b c = true) :
    pathLe a c = true := lexLe_trans a.data b.data c.data h1 h2

theorem pathLe_antisymm {a b : String} (h1 : pathLe a b = true) (h2 : pathLe b a = true) :
    a = b := string_data_inj (lexLe_antisymm a.data b.data h1 h2)

theorem sorted_insertionSort_pathRel (l : List String) :
    List.Sorted pathRel (l.insertionSort pathRel) := by
  haveI : IsTotal String pathRel := ⟨pathLe_total⟩
  haveI : IsTrans String pathRel := ⟨fun _ _ _ => pathLe_trans⟩
  exact List.sorted_insertionSort pathRel l

theorem sorted_insertionSort_itemLe (l : List (String × MediaKind)) :
    List.Sorted itemLe (l.insertionSort itemLe) := by
  haveI : IsTotal (String × MediaKind) itemLe := ⟨fun a b => pathLe_total a.1 b.1⟩
  haveI : IsTrans (String × MediaKind) itemLe := ⟨fun _ _ _ => pathLe_trans⟩
  exact List.sorted_insertionSort itemLe l

theorem find?_min_of_sorted {l : List (String × MediaKind)} {p : String × MediaKind → Bool}
    {x : String × MediaKind} (hs : List.Sorted itemLe l) (hf : l.find? p = some x) :
    ∀ y ∈ l, p y = true → pathLe x.1 y.1 = true := by
  induction l with
  | nil => simp at hf
  | cons a t ih =>
    rcases List.sorted_cons.mp hs with ⟨hhead, htail⟩
    cases hpa : p a with
    | true =>
      rw [List.find?_cons_of_pos _ hpa] at hf
      cases hf
      intro y hy _
      rcases List.mem_cons.mp hy with rfl | hyt
      · exact pathLe_refl _
      · exact hhead y hyt
    | false =>
      rw [List.find?_cons_of_neg _ (by simp [hpa])] at hf
      intro y hy hpy
      rcases List.mem_cons.mp hy with rfl | hyt
      · rw [hpa] at hpy
        cases hpy
      · exact ih htail hf y hyt hpy

theorem mem_mediaItems {classify : String → MediaKind} {fsOk : String → Bool}
    {files : List String} {x : String × MediaKind} :
    x ∈ mediaItems classify fsOk files ↔
      x.1 ∈ files ∧ classify x.1 = x.2 ∧ x.2 ≠ MediaKind.Unknown ∧ fsOk x.1 = true := by
  simp only [mediaItems, List.mem_filter, List.mem_filterMap]
  constructor
  · rintro ⟨⟨a, ha, hg⟩, hfs⟩
    cases hc : classify a <;> rw [hc] at hg <;> cases hg <;>
      simp_all
  · rintro ⟨hmem, hcl, hunk, hfs⟩
    refine ⟨⟨x.1, hmem, ?_⟩, hfs⟩
    cases hx : x.2 <;> rw [hx] at hcl hunk <;> rw [hcl] <;> simp_all
    · exact (Prod.ext rfl hx.symm)
    · exact (Prod.ext rfl hx.symm)

theorem map_fst_mediaItems_sublist (classify : String → MediaKind) (fsOk : String → Bool)
    (files : List String) :
    ((mediaItems classify fsOk files).map Prod.fst).Sublist files := by
  have h1 : ∀ fs : List String,
      ((fs.filterMap fun path =>
        match classify path with
        | MediaKind.Unknown => none
        | k => some (path, k)).map Prod.fst).Sublist fs := by
    intro fs
    induction fs with
    | nil => simp
    | cons a t ih =>
      rw [List.filterMap_cons]
      cases hc : classify a
      case Unknown => exact ih.cons a
      case Video => simpa using ih.cons₂ a
      case Image => simpa using ih.cons₂ a
  have h2 : (mediaItems classify fsOk files).Sublist
      (files.filterMap fun path =>
        match classify path with
        | MediaKind.Unknown => none
        | k => some (path, k)) := List.filter_sublist _
  exact (h2.map Prod.fst).trans (h1 files)

theorem nodup_fst_mediaItems {classify : String → MediaKind} {fsOk : String → Bool}
    {files : List String} (h : files.Nodup) :
    ((mediaItems classify fsOk files).map Prod.fst).Nodup :=
  h.sublist (map_fst_mediaItems_sublist classify fsOk files)

theorem mediaItems_perm (classify : String → MediaKind) (fsOk : String → Bool)
    {files1 files2 : List String} (h : files1.Perm files2) :
    (mediaItems classify fsOk files1).Perm (mediaItems classify fsOk files2) :=
  (h.filterMap _).filter _

theorem insertionSort_eq_of_perm_nodup_fst {l1 l2 : List (String × MediaKind)}
    (hp : l1.Perm l2) (hn : (l1.map Prod.fst).Nodup) :
    l1.insertionSort itemLe = l2.insertionSort itemLe := by
  have hperm : (l1.insertionSort itemLe).Perm (l2.insertionSort itemLe) :=
    (List.perm_insertionSort itemLe l1).trans (hp.trans (List.perm_insertionSort itemLe l2).symm)
  have hs1 := sorted_insertionSort_itemLe l1
  have hs2 := sorted_insertionSort_itemLe l2
  have hn1 : ((l1.insertionSort itemLe).map Prod.fst).Nodup :=
    (((List.perm_insertionSort itemLe l1).map Prod.fst).nodup_iff).mpr hn
  have hn2 : ((l2.insertionSort itemLe).map Prod.fst).Nodup := by
    refine ((hperm.map Prod.fst).nodup_iff).mp hn1
  haveI : IsAntisymm (String × MediaKind) itemLt := by
    constructor
    intro a b h1 h2
    exact absurd (pathLe_antisymm h1.1 h2.1) h1.2
  have hp1 : List.Sorted itemLt (l1.insertionSort itemLe) :=
    hs1.and ((List.pairwise_map.mp hn1).imp fun h => h)
  have hp2 : List.Sorted itemLt (l2.insertionSort itemLe) :=
    hs2.and ((List.pairwise_map.mp hn2).imp fun h => h)
  exact List.eq_of_perm_of_sorted hperm hp1 hp2

theorem eqIgnoreAsciiCase_iff {a b : String} :
    eqIgnoreAsciiCase a b = true ↔ strLower a = strLower b := by
  simp [eqIgnoreAsciiCase]

theorem any_eqIgnore_disjoint {L1 L2 : List String}
    (hdisj : ∀ a ∈ L1, ∀ b ∈ L2, strLower a ≠ strLower b) {ext : String}
    (h1 : L1.any (fun e => eqIgnoreAsciiCase e ext) = true) :
    L2.any (fun e => eqIgnoreAsciiCase e ext) = false := by
  rw [List.any_eq_true] at h1
  obtain ⟨a, ha, hae⟩ := h1
  rw [eqIgnoreAsciiCase_iff] at hae
  by_contra hcon
  rw [Bool.not_eq_false, List.any_eq_true] at hcon
  obtain ⟨b, hb, hbe⟩ := hcon
  rw [eqIgnoreAsciiCase_iff] at hbe
  exact hdisj a ha b hb (hae.trans hbe.symm)

theorem forbidden_lower_disjoint_allowed :
    ∀ a ∈ FORBIDDEN_EXTENSIONS, ∀ b ∈ VIDEO_EXTSTENSIONS ++ IMAGE_EXTSTENSIONS,
      strLower a ≠ strLower b := by decide

theorem image_lower_disjoint_video :
    ∀ a ∈ IMAGE_EXTSTENSIONS, ∀ b ∈ VIDEO_EXTSTENSIONS,
      strLower a ≠ strLower b := by decide

/-- C9: in the selector, the order of the two discarding checks is
immaterial: classifying first and then discarding paths that fail the
regular-non-empty metadata check (what `process_download_result` does)
yields the same survivor list as filtering on the metadata check first
and then classifying, for any fixed filesystem state (`classify`,
`fsOk`). -/
theorem mediaItems_filter_order_immaterial
    (classify : String → MediaKind) (fsOk : String → Bool) (files : List String) :
    mediaItems classify fsOk files =
      (files.filter fsOk).filterMap fun path =>
        match classify path with
        | MediaKind.Unknown => none
        | k => some (path, k) := by
  induction files with
  | nil => rfl
  | cons a t ih =>
    simp only [mediaItems, List.filterMap_cons, List.filter_cons] at ih ⊢
    cases hc : classify a <;> cases hf : fsOk a <;>
      simp [hc, hf, List.filterMap_cons, List.filter_cons, ih]

/-- C10: the forbidden-extension test in `is_potential_media_file` is
redundant: the forbidden set is disjoint (case-insensitively) from the
allowed video/image extension sets, and dropping the test does not
change the function. -/
theorem forbidden_check_redundant :
    ((FORBIDDEN_EXTENSIONS.all fun f =>
        (VIDEO_EXTSTENSIONS ++ IMAGE_EXTSTENSIONS).all fun a =>
          !(eqIgnoreAsciiCase a f)) = true) ∧
    ∀ path, is_potential_media_file path = is_potential_media_file_noForbidden path := by
  constructor
  · decide
  · intro path
    unfold is_potential_media_file is_potential_media_file_noForbidden
    cases hf : fileName path <;>
      cases hpe : pathExtension path <;>
        simp only []
    case none.some e | some.some e =>
      cases hforb : FORBIDDEN_EXTENSIONS.any fun f => eqIgnoreAsciiCase f (strLower e)
      · simp [hforb]
      · have hall : (VIDEO_EXTSTENSIONS ++ IMAGE_EXTSTENSIONS).any
            (fun a => eqIgnoreAsciiCase a (strLower e)) = false :=
          any_eqIgnore_disjoint forbidden_lower_disjoint_allowed hforb
        simp [hforb, hall]

theorem string_data_append (a b : String) : (a ++ b).data = a.data ++ b.data := by
  cases a
  cases b
  rfl

theorem isPrefixOf_self : ∀ l : List Char, l.isPrefixOf l = true
  | [] => rfl
  | a :: t => by simp [List.isPrefixOf, isPrefixOf_self t]

theorem containsSub_nil : ∀ hay : List Char, containsSub hay [] = true
  | [] => rfl
  | _ :: t => by simp [containsSub, List.isPrefixOf]

theorem containsSub_append_right : ∀ a b : List Char, containsSub (a ++ b) b = true
  | [], b => by
    cases b with
    | nil => rfl
    | cons c t => simp [containsSub, isPrefixOf_self]
  | c :: a, b => by
    simp [containsSub, containsSub_append_right a b]

theorem strContains_append_right (a b : String) : strContains (a ++ b) b = true := by
  unfold strContains
  rw [string_data_append]
  exact containsSub_append_right a.data b.data

/-- C2: whenever the external process exits non-zero, the runner fails
with an error whose display message contains the trimmed captured
stderr and which identifies the failing tool (the dedicated
`YTDLPFailed` variant, or a generic error naming the command); in
particular exit code 1 with stderr "rate limited" yields the yt-dlp
fetch-tool error carrying "rate limited". -/
theorem run_command_nonzero_exit (exitCode : Nat) (stderrRaw tmpPath : String)
    (entries : List DirEntry) (hexit : exitCode ≠ 0) :
    (∃ e, run_command_in_tempdir "yt-dlp" tmpPath exitCode stderrRaw entries =
        .error e ∧
      strContains e.message (strTrim stderrRaw) = true ∧
      ((∃ s, e = Error.YTDLPFailed s) ∨ strContains e.message "yt-dlp" = true)) ∧
    run_command_in_tempdir "yt-dlp" tmpPath 1 "rate limited" entries =
      .error (Error.YTDLPFailed "rate limited") ∧
    strContains (Error.YTDLPFailed "rate limited").message "rate limited" = true := by
  refine ⟨?_, rfl, by decide⟩
  unfold run_command_in_tempdir
  rw [if_pos hexit]
  cases hb : (strTrim stderrRaw == "")
  · refine ⟨Error.YTDLPFailed (strTrim stderrRaw), ?_, ?_, Or.inl ⟨_, rfl⟩⟩
    · simp [hb]
    · show strContains ("yt-dpl failed: " ++ strTrim stderrRaw) (strTrim stderrRaw) = true
      exact strContains_append_right _ _
  · have hempty : strTrim stderrRaw = "" := by simpa using hb
    refine ⟨Error.Other ("yt-dlp failed: " ++ strTrim stderrRaw), ?_, ?_, Or.inr ?_⟩
    · simp [hb]
    · rw [hempty]
      decide
    · rw [hempty]
      decide

/-- Witness for `run_command_nonzero_exit` at exit code 1, stderr
"rate limited". -/
theorem run_command_nonzero_exit_witness :
    (∃ e, run_command_in_tempdir "yt-dlp" "/tmp/w" 1 "rate limited" [] =
        .error e ∧
      strContains e.message (strTrim "rate limited") = true ∧
      ((∃ s, e = Error.YTDLPFailed s) ∨ strContains e.message "yt-dlp" = true)) ∧
    run_command_in_tempdir "yt-dlp" "/tmp/w" 1 "rate limited" [] =
      .error (Error.YTDLPFailed "rate limited") ∧
    strContains (Error.YTDLPFailed "rate limited").message "rate limited" = true :=
  run_command_nonzero_exit 1 "rate limited" "/tmp/w" [] (by decide)

/-- C4: the classifier decides by extension first, case-insensitively:
a video-set extension gives `Video`, an image-set extension gives
`Image`, and an unrecognized or missing extension falls through to the
content-sniffing step; `VIDEO.MP4` classifies like `video.mp4`. -/
theorem detect_media_kind_extension_lookup (p : String)
    (inferFromPath : String → Except Unit (Option String)) :
    (∀ e, pathExtension p = some e →
      ((VIDEO_EXTSTENSIONS.any fun v => eqIgnoreAsciiCase v e) = true →
          detect_media_kind p inferFromPath = MediaKind.Video) ∧
      ((IMAGE_EXTSTENSIONS.any fun v => eqIgnoreAsciiCase v e) = true →
          detect_media_kind p inferFromPath = MediaKind.Image) ∧
      ((VIDEO_EXTSTENSIONS.any fun v => eqIgnoreAsciiCase v e) = false →
        (IMAGE_EXTSTENSIONS.any fun v => eqIgnoreAsciiCase v e) = false →
          detect_media_kind p inferFromPath = contentSniff (inferFromPath p))) ∧
    (pathExtension p = none →
        detect_media_kind p inferFromPath = contentSniff (inferFromPath p)) ∧
    detect_media_kind "VIDEO.MP4" inferFromPath =
      detect_media_kind "video.mp4" inferFromPath := by
  refine ⟨?_, ?_, rfl⟩
  · intro e he
    refine ⟨?_, ?_, ?_⟩
    · intro hv
      simp [detect_media_kind, extensionKind, he, hv]
    · intro hi
      have hv : (VIDEO_EXTSTENSIONS.any fun v => eqIgnoreAsciiCase v e) = false :=
        any_eqIgnore_disjoint image_lower_disjoint_video hi
      simp [detect_media_kind, extensionKind, he, hv, hi]
    · intro hv hi
      simp [detect_media_kind, extensionKind, he, hv, hi]
  · intro he
    simp [detect_media_kind, extensionKind, he]

/-- Witness for `detect_media_kind_extension_lookup`: a video
extension, an image extension, and a path with no extension. -/
theorem detect_media_kind_extension_lookup_witness :
    pathExtension "clip.webm" = some "webm" ∧
    (VIDEO_EXTSTENSIONS.any fun v => eqIgnoreAsciiCase v "webm") = true ∧
    detect_media_kind "clip.webm" inferFromPathNone = MediaKind.Video ∧
    pathExtension "cover.PNG" = some "PNG" ∧
    (IMAGE_EXTSTENSIONS.any fun v => eqIgnoreAsciiCase v "PNG") = true ∧
    detect_media_kind "cover.PNG" inferFromPathNone = MediaKind.Image ∧
    pathExtension "noext" = none ∧
    detect_media_kind "noext" inferFromPathNone =
      contentSniff (inferFromPathNone "noext") :=
  ⟨by decide, by decide,
    ((detect_media_kind_extension_lookup "clip.webm" inferFromPathNone).1 "webm"
        (by decide)).1 (by decide),
    by decide, by decide,
    ((detect_media_kind_extension_lookup "cover.PNG" inferFromPathNone).1 "PNG"
        (by decide)).2.1 (by decide),
    by decide,
    (detect_media_kind_extension_lookup "noext" inferFromPathNone).2.1 (by decide)⟩

/-- C5: the async classifier is total and degrades to `Unknown`: its
result is always one of the three kinds, and when the extension lookup
does not decide, a failed open, a failed read, an empty read, a
signature probe that finds nothing, or a MIME type that is neither
`video/*` nor `image/*` all yield `Unknown` rather than an error. -/
theorem detect_media_kind_async_total (p : String) (openRead : OpenReadOutcome)
    (inferGet : List UInt8 → Option String) :
    (detect_media_kind_async p openRead inferGet = MediaKind.Video ∨
     detect_media_kind_async p openRead inferGet = MediaKind.Image ∨
     detect_media_kind_async p openRead inferGet = MediaKind.Unknown) ∧
    (extensionKind p = none →
      ((openRead = OpenReadOutcome.openErr ∨ openRead = OpenReadOutcome.readErr) →
        detect_media_kind_async p openRead inferGet = MediaKind.Unknown) ∧
      (∀ buf, openRead = OpenReadOutcome.readOk buf →
        (buf = [] ∨ inferGet buf = none ∨
          (∀ mt, inferGet buf = some mt →
            mt.startsWith "video/" = false ∧ mt.startsWith "image/" = false)) →
        detect_media_kind_async p openRead inferGet = MediaKind.Unknown)) := by
  constructor
  · cases h : detect_media_kind_async p openRead inferGet
    · exact Or.inl rfl
    · exact Or.inr (Or.inl rfl)
    · exact Or.inr (Or.inr rfl)
  · intro hext
    constructor
    · rintro (rfl | rfl) <;> simp [detect_media_kind_async, hext]
    · rintro buf rfl hcase
      rcases hcase with rfl | hnone | hmt
      · simp [detect_media_kind_async, hext]
      · simp [detect_media_kind_async, hext, hnone]
      · cases hbuf : buf.length with
        | zero =>
          have : buf = [] := List.length_eq_zero.mp hbuf
          simp [detect_media_kind_async, hext, this]
        | succ n =>
          cases hig : inferGet buf with
          | none => simp [detect_media_kind_async, hext, hig]
          | some mt =>
            have hms := hmt mt hig
            simp [detect_media_kind_async, hext, hig, hms.1, hms.2]

/-- Witness for `detect_media_kind_async_total`: unrecognized
extension and a failed open degrade to `Unknown`. -/
theorem detect_media_kind_async_total_witness :
    extensionKind "data.bin" = none ∧
    detect_media_kind_async "data.bin" OpenReadOutcome.openErr inferGetNone =
      MediaKind.Unknown :=
  ⟨by decide,
    ((detect_media_kind_async_total "data.bin" OpenReadOutcome.openErr
        inferGetNone).2 (by decide)).1 (Or.inl rfl)⟩

theorem mem_collectFiles {cwd : String} {entries : List DirEntry} {p : String} :
    p ∈ collectFiles cwd entries ↔
      ∃ e ∈ entries, p = cwd ++ "/" ++ e.name ∧
        is_potential_media_file (cwd ++ "/" ++ e.name) = true := by
  simp only [collectFiles, List.mem_filterMap]
  constructor
  · rintro ⟨e, he, hsome⟩
    by_cases hp : is_potential_media_file (cwd ++ "/" ++ e.name) = true
    · rw [if_pos hp] at hsome
      cases hsome
      exact ⟨e, he, rfl, hp⟩
    · rw [if_neg hp] at hsome
      cases hsome
  · rintro ⟨e, he, rfl, hp⟩
    exact ⟨e, he, by rw [if_pos hp]⟩

theorem run_command_ok_elim {cmd tmpPath : String} {exitCode : Nat} {stderrRaw : String}
    {entries : List DirEntry} {dr : DownloadResult}
    (hok : run_command_in_tempdir cmd tmpPath exitCode stderrRaw entries = .ok dr) :
    exitCode = 0 ∧ collectFiles tmpPath entries ≠ [] ∧
      dr = ⟨tmpPath, (collectFiles tmpPath entries).insertionSort pathRel⟩ := by
  unfold run_command_in_tempdir at hok
  by_cases hz : exitCode ≠ 0
  · exfalso
    rw [if_pos hz] at hok
    simp only [beq_iff_eq] at hok
    split at hok
    · exact Except.noConfusion hok
    · split at hok
      · exact Except.noConfusion hok
      · exact Except.noConfusion hok
  · rw [if_neg hz] at hok
    simp only [List.isEmpty_iff] at hok
    split at hok
    · exact Except.noConfusion hok
    · rename_i hne
      injection hok with h
      exact ⟨by omega, hne, h.symm⟩

/-- C7: every path in the file list of a `DownloadResult` produced by
the runner lies inside the workspace directory owned by it: it is
`workspace ++ "/" ++ name` for some scanned entry of that workspace. -/
theorem run_command_files_in_workspace (cmd tmpPath : String) (exitCode : Nat)
    (stderrRaw : String) (entries : List DirEntry) (dr : DownloadResult)
    (hok : run_command_in_tempdir cmd tmpPath exitCode stderrRaw entries = .ok dr) :
    dr.tempdir = tmpPath ∧
    ∀ p ∈ dr.files, ∃ e ∈ entries, p = dr.tempdir ++ "/" ++ e.name := by
  obtain ⟨-, -, hdr⟩ := run_command_ok_elim hok
  subst hdr
  refine ⟨rfl, ?_⟩
  intro p hp
  rw [List.mem_insertionSort] at hp
  obtain ⟨e, he, hpe, -⟩ := mem_collectFiles.mp hp
  exact ⟨e, he, hpe⟩

/-- Witness for `run_command_files_in_workspace` at a one-entry
workspace. -/
theorem run_command_files_in_workspace_witness :
    DownloadResult.tempdir ⟨"/w", ["/w/clip.mp4"]⟩ = "/w" ∧
    ∀ p ∈ DownloadResult.files ⟨"/w", ["/w/clip.mp4"]⟩,
      ∃ e ∈ [DirEntry.mk "clip.mp4" EntryType.regular],
        p = DownloadResult.tempdir ⟨"/w", ["/w/clip.mp4"]⟩ ++ "/" ++ e.name :=
  run_command_files_in_workspace "yt-dlp" "/w" 0 ""
    [DirEntry.mk "clip.mp4" EntryType.regular] ⟨"/w", ["/w/clip.mp4"]⟩ rfl

/-- C8: on every exit path of a pipeline run the workspace-drop event
is the last event of the trace — so the workspace is released by the
time the run completes, and never before the winning file has been
sent (any send event precedes the drop). -/
theorem workspace_released_last (cmd tmpPath : String) (exitCode : Nat)
    (stderrRaw : String) (entries : List DirEntry) (classify : String → MediaKind)
    (fsOk : String → Bool) :
    ∃ pre,
      handleEvents cmd tmpPath exitCode stderrRaw entries classify fsOk =
        pre ++ [PipelineEvent.dropDir] ∧
      PipelineEvent.dropDir ∉ pre ∧
      PipelineEvent.createDir ∈ pre := by
  cases h1 : run_command_in_tempdir cmd tmpPath exitCode stderrRaw entries with
  | error e => exact ⟨[PipelineEvent.createDir], by simp [handleEvents, h1], by simp, by simp⟩
  | ok dr =>
    cases h2 : process_download_result classify fsOk dr.files with
    | error e =>
      exact ⟨[PipelineEvent.createDir], by simp [handleEvents, h1, h2], by simp, by simp⟩
    | ok w =>
      obtain ⟨p, k⟩ := w
      exact ⟨[PipelineEvent.createDir, PipelineEvent.sendFile p k],
        by simp [handleEvents, h1, h2], by simp, by simp⟩

theorem pdr_spec (classify : String → MediaKind) (fsOk : String → Bool)
    {files : List String} (hne : files ≠ [])
    (hitems : mediaItems classify fsOk files ≠ []) :
    ∃ w, process_download_result classify fsOk files = .ok w ∧
      w ∈ mediaItems classify fsOk files ∧
      ((∃ q, (q, MediaKind.Video) ∈ mediaItems classify fsOk files) →
        w.2 = MediaKind.Video ∧
        ∀ q, (q, MediaKind.Video) ∈ mediaItems classify fsOk files →
          pathLe w.1 q = true) ∧
      ((∀ q, (q, MediaKind.Video) ∉ mediaItems classify fsOk files) →
        w.2 = MediaKind.Image ∧
        ∀ q, (q, MediaKind.Image) ∈ mediaItems classify fsOk files →
          pathLe w.1 q = true) := by
  have hne2 : files.isEmpty = false := by
    rw [Bool.eq_false_iff]
    intro h
    exact hne (List.isEmpty_iff.mp h)
  have hitems2 : (mediaItems classify fsOk files).isEmpty = false := by
    rw [Bool.eq_false_iff]
    intro h
    exact hitems (List.isEmpty_iff.mp h)
  have hperm : ((mediaItems classify fsOk files).insertionSort itemLe).Perm
      (mediaItems classify fsOk files) := List.perm_insertionSort itemLe _
  have hsorted := sorted_insertionSort_itemLe (mediaItems classify fsOk files)
  have hpdr : process_download_result classify fsOk files =
      match ((mediaItems classify fsOk files).insertionSort itemLe).find?
          (fun x => x.2 == MediaKind.Video) with
      | some x => .ok (x.1, MediaKind.Video)
      | none =>
        match ((mediaItems classify fsOk files).insertionSort itemLe).find?
            (fun x => x.2 == MediaKind.Image) with
        | some x => .ok (x.1, MediaKind.Image)
        | none => .error Error.NoMediaFound := by
    simp only [process_download_result, hne2, hitems2, Bool.false_eq_true, if_false]
  cases hv : ((mediaItems classify fsOk files).insertionSort itemLe).find?
      (fun x => x.2 == MediaKind.Video) with
  | some x =>
    have hx2 : x.2 = MediaKind.Video := by simpa using List.find?_some hv
    have hxmem : x ∈ mediaItems classify fsOk files :=
      hperm.mem_iff.mp (List.mem_of_find?_eq_some hv)
    have hwx : (x.1, MediaKind.Video) = x := by rw [← hx2]
    refine ⟨(x.1, MediaKind.Video), ?_, ?_, ?_, ?_⟩
    · rw [hpdr, hv]
    · rw [hwx]
      exact hxmem
    · intro _
      refine ⟨rfl, ?_⟩
      intro q hq
      have hqs : (q, MediaKind.Video) ∈
          (mediaItems classify fsOk files).insertionSort itemLe :=
        hperm.mem_iff.mpr hq
      simpa using find?_min_of_sorted hsorted hv (q, MediaKind.Video) hqs (by simp)
    · intro hnone
      exact absurd (hwx ▸ hxmem) (hnone x.1)
  | none =>
    have hnov : ∀ q, (q, MediaKind.Video) ∉ mediaItems classify fsOk files := by
      intro q hq
      have hqs : (q, MediaKind.Video) ∈
          (mediaItems classify fsOk files).insertionSort itemLe :=
        hperm.mem_iff.mpr hq
      have := List.find?_eq_none.mp hv _ hqs
      simp at this
    have hsne : (mediaItems classify fsOk files).insertionSort itemLe ≠ [] := by
      intro h0
      rw [h0] at hperm
      exact hitems hperm.symm.eq_nil
    obtain ⟨y, hy⟩ := List.exists_mem_of_ne_nil _ hsne
    have hy_items : y ∈ mediaItems classify fsOk files := hperm.mem_iff.mp hy
    have hy_props := mem_mediaItems.mp hy_items
    have hyv : y.2 ≠ MediaKind.Video := by
      intro h
      exact hnov y.1 (by rw [← h]; simpa using hy_items)
    have hyi : y.2 = MediaKind.Image := by
      cases hk : y.2
      · exact absurd hk hyv
      · rfl
      · exact absurd hk hy_props.2.2.1
    have hfi : (((mediaItems classify fsOk files).insertionSort itemLe).find?
        (fun x => x.2 == MediaKind.Image)).isSome := by
      rw [List.find?_isSome]
      exact ⟨y, hy, by simp [hyi]⟩
    obtain ⟨x, hx⟩ := Option.isSome_iff_exists.mp hfi
    have hx2 : x.2 = MediaKind.Image := by simpa using List.find?_some hx
    have hxmem : x ∈ mediaItems classify fsOk files :=
      hperm.mem_iff.mp (List.mem_of_find?_eq_some hx)
    have hwx : (x.1, MediaKind.Image) = x := by rw [← hx2]
    refine ⟨(x.1, MediaKind.Image), ?_, ?_, ?_, ?_⟩
    · rw [hpdr, hv, hx]
    · rw [hwx]
      exact hxmem
    · rintro ⟨q, hq⟩
      exact absurd hq (hnov q)
    · intro _
      refine ⟨rfl, ?_⟩
      intro q hq
      have hqs : (q, MediaKind.Image) ∈
          (mediaItems classify fsOk files).insertionSort itemLe :=
        hperm.mem_iff.mpr hq
      simpa using find?_min_of_sorted hsorted hx (q, MediaKind.Image) hqs (by simp)

theorem pdr_perm_invariant (classify : String → MediaKind) (fsOk : String → Bool)
    {files : List String} (hnd : files.Nodup) {files2 : List String}
    (hp : files2.Perm files) :
    process_download_result classify fsOk files2 =
      process_download_result classify fsOk files := by
  by_cases hf : files = []
  · subst hf
    rw [hp.eq_nil]
  · have hf2 : files2 ≠ [] := by
      intro h
      rw [h] at hp
      exact hf hp.symm.eq_nil
    have hitems_perm := mediaItems_perm classify fsOk hp
    have hnodup2 : ((mediaItems classify fsOk files2).map Prod.fst).Nodup :=
      nodup_fst_mediaItems (hp.nodup_iff.mpr hnd)
    have hsorteq := insertionSort_eq_of_perm_nodup_fst hitems_perm hnodup2
    have he1 : files.isEmpty = false := by
      rw [Bool.eq_false_iff]
      intro h
      exact hf (List.isEmpty_iff.mp h)
    have he2 : files2.isEmpty = false := by
      rw [Bool.eq_false_iff]
      intro h
      exact hf2 (List.isEmpty_iff.mp h)
    by_cases hmi : mediaItems classify fsOk files = []
    · have hmi2 : mediaItems classify fsOk files2 = [] := by
        rw [hmi] at hitems_perm
        exact hitems_perm.eq_nil
      simp [process_download_result, he1, he2, hmi, hmi2]
    · have hmi2 : mediaItems classify fsOk files2 ≠ [] := by
        intro h
        rw [h] at hitems_perm
        exact hmi hitems_perm.symm.eq_nil
      have hb1 : (mediaItems classify fsOk files).isEmpty = false := by
        rw [Bool.eq_false_iff]
        intro h
        exact hmi (List.isEmpty_iff.mp h)
      have hb2 : (mediaItems classify fsOk files2).isEmpty = false := by
        rw [Bool.eq_false_iff]
        intro h
        exact hmi2 (List.isEmpty_iff.mp h)
      simp only [process_download_result, he1, he2, hb1, hb2, hsorteq,
        Bool.false_eq_true, if_false]

/-- C1: whenever the survivor set is non-empty, the selector delivers
exactly one `(path, kind)` pair: the `pathLe`-least path among `Video`
survivors when one exists, otherwise the `pathLe`-least path among
`Image` survivors; and the winner is unchanged under any permutation
of the input file list (concurrent classification completion order
permutes the intermediate list the same way, and is neutralised by the
sort). -/
theorem select_winner_deterministic (classify : String → MediaKind) (fsOk : String → Bool)
    (files : List String) (hnd : files.Nodup)
    (hne : mediaItems classify fsOk files ≠ []) :
    ∃ w, process_download_result classify fsOk files = .ok w ∧
      w ∈ mediaItems classify fsOk files ∧
      ((∃ q, (q, MediaKind.Video) ∈ mediaItems classify fsOk files) →
        w.2 = MediaKind.Video ∧
        ∀ q, (q, MediaKind.Video) ∈ mediaItems classify fsOk files →
          pathLe w.1 q = true) ∧
      ((∀ q, (q, MediaKind.Video) ∉ mediaItems classify fsOk files) →
        w.2 = MediaKind.Image ∧
        ∀ q, (q, MediaKind.Image) ∈ mediaItems classify fsOk files →
          pathLe w.1 q = true) ∧
      ∀ files2, files2.Perm files →
        process_download_result classify fsOk files2 = .ok w := by
  have hf : files ≠ [] := by
    intro h
    rw [h] at hne
    exact hne rfl
  obtain ⟨w, h1, h2, h3, h4⟩ := pdr_spec classify fsOk hf hne
  exact ⟨w, h1, h2, h3, h4,
    fun files2 hp => (pdr_perm_invariant classify fsOk hnd hp).trans h1⟩

/-- Witness for `select_winner_deterministic` on a two-file survivor
set with one video and one image. -/
theorem select_winner_deterministic_witness :
    ∃ w, process_download_result classifyDemo fsOkDemo ["/w/a.jpg", "/w/b.mp4"] = .ok w ∧
      w ∈ mediaItems classifyDemo fsOkDemo ["/w/a.jpg", "/w/b.mp4"] ∧
      ((∃ q, (q, MediaKind.Video) ∈ mediaItems classifyDemo fsOkDemo ["/w/a.jpg", "/w/b.mp4"]) →
        w.2 = MediaKind.Video ∧
        ∀ q, (q, MediaKind.Video) ∈ mediaItems classifyDemo fsOkDemo ["/w/a.jpg", "/w/b.mp4"] →
          pathLe w.1 q = true) ∧
      ((∀ q, (q, MediaKind.Video) ∉ mediaItems classifyDemo fsOkDemo ["/w/a.jpg", "/w/b.mp4"]) →
        w.2 = MediaKind.Image ∧
        ∀ q, (q, MediaKind.Image) ∈ mediaItems classifyDemo fsOkDemo ["/w/a.jpg", "/w/b.mp4"] →
          pathLe w.1 q = true) ∧
      ∀ files2, files2.Perm ["/w/a.jpg", "/w/b.mp4"] →
        process_download_result classifyDemo fsOkDemo files2 = .ok w :=
  select_winner_deterministic classifyDemo fsOkDemo ["/w/a.jpg", "/w/b.mp4"]
    (by decide) (by decide)

/-- C6: the pipeline fails with `NoMediaFound` exactly when (runner)
the retained file set after pre-filtering is empty with the process
succeeding, or (selector) the input file list is empty or no candidate
survives classification and the metadata check. -/
theorem no_media_found_characterisation :
    (∀ (cmd tmpPath : String) (exitCode : Nat) (stderrRaw : String)
        (entries : List DirEntry),
      run_command_in_tempdir cmd tmpPath exitCode stderrRaw entries =
          .error Error.NoMediaFound ↔
        exitCode = 0 ∧ collectFiles tmpPath entries = []) ∧
    (∀ (classify : String → MediaKind) (fsOk : String → Bool) (files : List String),
      process_download_result classify fsOk files = .error Error.NoMediaFound ↔
        files = [] ∨ mediaItems classify fsOk files = []) := by
  constructor
  · intro cmd tmpPath exitCode stderrRaw entries
    constructor
    · intro h
      unfold run_command_in_tempdir at h
      by_cases hz : exitCode ≠ 0
      · exfalso
        rw [if_pos hz] at h
        simp only [beq_iff_eq] at h
        split at h <;> [skip; split at h] <;> simp_all
      · rw [if_neg hz] at h
        simp only [List.isEmpty_iff] at h
        split at h
        · rename_i hnil
          exact ⟨by omega, hnil⟩
        · exact Except.noConfusion h
    · rintro ⟨rfl, hnil⟩
      unfold run_command_in_tempdir
      rw [if_neg (by omega)]
      simp [hnil]
  · intro classify fsOk files
    constructor
    · intro h
      by_cases hf : files = []
      · exact Or.inl hf
      · by_cases hmi : mediaItems classify fsOk files = []
        · exact Or.inr hmi
        · exfalso
          obtain ⟨w, hw, -⟩ := pdr_spec classify fsOk hf hmi
          rw [hw] at h
          exact Except.noConfusion h
    · rintro (rfl | hmi)
      · rfl
      · by_cases hf : files = []
        · subst hf
          rfl
        · have he1 : files.isEmpty = false := by
            rw [Bool.eq_false_iff]
            intro h
            exact hf (List.isEmpty_iff.mp h)
          simp [process_download_result, he1, hmi]

theorem takeWhile_append_stop {xs ys : List Char} (h : ∀ c ∈ xs, c ≠ '/') :
    ((xs ++ '/' :: ys).takeWhile fun c => c != '/') = xs := by
  induction xs with
  | nil => simp [List.takeWhile_cons]
  | cons a t ih =>
    have ha : a ≠ '/' := h a (List.mem_cons_self a t)
    simp only [List.cons_append, List.takeWhile_cons]
    rw [if_pos (by simpa using ha)]
    rw [ih fun c hc => h c (List.mem_cons_of_mem a hc)]

theorem afterLastSep_append {cwd n : List Char} (hn : '/' ∉ n) :
    afterLastSep '/' (cwd ++ '/' :: n) = n := by
  unfold afterLastSep
  have hshape : (cwd ++ '/' :: n).reverse = n.reverse ++ '/' :: cwd.reverse := by
    simp
  rw [hshape]
  rw [takeWhile_append_stop ?haux]
  · exact List.reverse_reverse n
  · intro c hc hcc
    exact hn (by simpa [hcc] using List.mem_reverse.mp hc)

theorem string_mk_data (n : String) : String.mk n.data = n := by
  cases n
  rfl

theorem fileName_append {cwd n : String} (hclean : cleanName n) :
    fileName (cwd ++ "/" ++ n) = some n := by
  obtain ⟨hne, hnosl, hdot, hdots⟩ := hclean
  have hdata : (cwd ++ "/" ++ n).data = cwd.data ++ '/' :: n.data := by
    simp [string_data_append]
  unfold fileName
  rw [hdata, afterLastSep_append hnosl]
  have h1 : n.data.isEmpty = false := by
    cases hd : n.data with
    | nil => exact absurd (string_data_inj (by rw [hd])) hne
    | cons a t => rfl
  have h2 : (n.data == ['.']) = false := by
    rw [beq_eq_false_iff_ne]
    intro hd
    exact hdot (string_data_inj (by rw [hd]))
  have h3 : (n.data == ['.', '.']) = false := by
    rw [beq_eq_false_iff_ne]
    intro hd
    exact hdots (string_data_inj (by rw [hd]))
  simp only [h1, h2, h3, Bool.or_self, Bool.or_false, Bool.false_eq_true, if_false]

theorem pathExtension_append {cwd n : String} (hclean : cleanName n) :
    pathExtension (cwd ++ "/" ++ n) = rustExtension n := by
  unfold pathExtension
  rw [fileName_append hclean]
  rfl

theorem is_potential_append {cwd n : String} (hclean : cleanName n) :
    is_potential_media_file (cwd ++ "/" ++ n) = claimNamePred n := by
  cases hdot : startsWithChar n '.'
  · cases hmeta : strContains (strLower n) "metadata"
    · cases hre : rustExtension n
      · simp [is_potential_media_file, claimNamePred, pathExtension_append hclean,
          fileName_append hclean, hdot, hmeta, hre]
      · rename_i e
        cases hF : FORBIDDEN_EXTENSIONS.any fun f => eqIgnoreAsciiCase f (strLower e)
        · simp [is_potential_media_file, claimNamePred, pathExtension_append hclean,
            fileName_append hclean, hdot, hmeta, hre, hF]
        · simp [is_potential_media_file, claimNamePred, pathExtension_append hclean,
            fileName_append hclean, hdot, hmeta, hre, hF]
    · simp [is_potential_media_file, claimNamePred, pathExtension_append hclean,
        fileName_append hclean, hdot, hmeta]
  · simp [is_potential_media_file, claimNamePred, pathExtension_append hclean,
      fileName_append hclean, hdot]

/-- C3 counterexample: the claim states the runner retains exactly the
*regular files* passing the name/extension filter, but the scan never
inspects the entry file type.  A workspace whose only entry is a
directory named `clip.mp4` yields a retained set containing it, while
the retained set the claim predicts (regular files only) is empty. -/
theorem runner_scan_regular_counterexample :
    run_command_in_tempdir "yt-dlp" "/w" 0 ""
        [DirEntry.mk "clip.mp4" EntryType.directory] =
      .ok ⟨"/w", ["/w/clip.mp4"]⟩ ∧
    claimRetainedRegular "/w" [DirEntry.mk "clip.mp4" EntryType.directory] = [] :=
  ⟨rfl, rfl⟩

/-- C3 (amended): after a successful run the runner retains exactly
the immediate entries whose *name* does not start with `.`, whose
lowercased name does not contain `metadata`, and whose extension is in
the allowed sets and not forbidden — irrespective of the entry file
type (regularity is only checked later, by the selector) — and the
retained list is sorted lexicographically by path. -/
theorem runner_scan_retained (cmd tmpPath : String) (exitCode : Nat)
    (stderrRaw : String) (entries : List DirEntry)
    (hclean : ∀ e ∈ entries, cleanName e.name) (dr : DownloadResult)
    (hok : run_command_in_tempdir cmd tmpPath exitCode stderrRaw entries = .ok dr) :
    List.Sorted pathRel dr.files ∧
    ∀ p, p ∈ dr.files ↔
      ∃ e ∈ entries, p = tmpPath ++ "/" ++ e.name ∧ claimNamePred e.name = true := by
  obtain ⟨-, -, hdr⟩ := run_command_ok_elim hok
  subst hdr
  refine ⟨sorted_insertionSort_pathRel _, ?_⟩
  intro p
  show p ∈ (collectFiles tmpPath entries).insertionSort pathRel ↔ _
  rw [List.mem_insertionSort, mem_collectFiles]
  constructor
  · rintro ⟨e, he, rfl, hpm⟩
    refine ⟨e, he, rfl, ?_⟩
    rw [← is_potential_append (hclean e he)]
    exact hpm
  · rintro ⟨e, he, rfl, hcp⟩
    refine ⟨e, he, rfl, ?_⟩
    rw [is_potential_append (hclean e he)]
    exact hcp

/-- Witness for `runner_scan_retained`: the scenario of the spec —
a workspace with regular files `a.json`, `b.log`, `clip.mp4` retains
exactly `clip.mp4`. -/
theorem runner_scan_retained_witness :
    List.Sorted pathRel (DownloadResult.files ⟨"/w", ["/w/clip.mp4"]⟩) ∧
    ∀ p, p ∈ DownloadResult.files ⟨"/w", ["/w/clip.mp4"]⟩ ↔
      ∃ e ∈ [DirEntry.mk "a.json" EntryType.regular,
          DirEntry.mk "b.log" EntryType.regular,
          DirEntry.mk "clip.mp4" EntryType.regular],
        p = "/w" ++ "/" ++ e.name ∧ claimNamePred e.name = true :=
  runner_scan_retained "yt-dlp" "/w" 0 ""
    [DirEntry.mk "a.json" EntryType.regular, DirEntry.mk "b.log" EntryType.regular,
      DirEntry.mk "clip.mp4" EntryType.regular]
    (by decide) ⟨"/w", ["/w/clip.mp4"]⟩ rfl

end TgRelay
